import Mathlib

/-
Verification development for sndadj (src/sndadj.c), a pitch-synchronous
overlap-add time-scale modifier.  The C globals become explicit parameters
and state records; C `double` values are modelled as exact rationals, the
`short` sample buffers as functions from integer positions to integers, and
the fatal `exit(1)` paths (as well as the integer divisions by zero that
crash the process) as explicit failure outcomes.  Loops become fuel-indexed
recursions; a separate lemma shows the computed fuel is sufficient whenever
the C loop terminates.
-/

set_option maxHeartbeats 2000000
set_option maxRecDepth 4000

/-- Sum of absolute differences between the `p` samples immediately before
the evaluation point and the `p` samples immediately after it: the inner
loop of `findPitchPeriod` (sndadj.c lines 63-71).  Sample values are
`short`s, so each term is the nonnegative difference the C code computes
with the conditional at line 70. -/
def diffAt (s : ℤ → ℤ) (p : ℕ) : ℕ :=
  ∑ i ∈ Finset.range p, (s ((i : ℤ) - (p : ℤ)) - s (i : ℤ)).natAbs

/-- Accumulator of the candidate-period search loop of `findPitchPeriod`:
`bestPeriod`, `minDiff` and `totalDiff` (sndadj.c lines 50-53; `minDiff`
is initialised to 1 and `bestPeriod` to 0). -/
structure SearchAcc where
  best : ℕ
  minDiff : ℕ
  totalDiff : ℕ
deriving DecidableEq

/-- One iteration of the candidate-period search loop (sndadj.c lines
63-77): accumulate `diff/period` into `totalDiff`, then update the best
period when `diff*bestPeriod < minDiff*period`. -/
def searchStep (s : ℤ → ℤ) (acc : SearchAcc) (p : ℕ) : SearchAcc :=
  let d := diffAt s p
  if d * acc.best < acc.minDiff * p then
    ⟨p, d, acc.totalDiff + d / p⟩
  else
    ⟨acc.best, acc.minDiff, acc.totalDiff + d / p⟩

/-- Lower end of the searched period range (sndadj.c lines 56-61):
narrowed using the previous period when the previous step was voiced. -/
def searchStart (minP prevPeriod : ℕ) (prevVoiced : Bool) : ℕ :=
  if prevVoiced then max minP (prevPeriod * 2 / 3) else minP

/-- Upper end of the searched period range (sndadj.c lines 56-61). -/
def searchStop (maxP prevPeriod : ℕ) (prevVoiced : Bool) : ℕ :=
  if prevVoiced then min maxP (prevPeriod * 3 / 2) else maxP

/-- `findPitchPeriod` (sndadj.c lines 47-88).  Returns the best period and
the new voiced flag.  Returns `none` exactly when the C code performs an
integer division by zero, which kills the process: dividing by
`stop - start` at line 78 when `stop = start`, dividing `diff` by a
candidate period 0 at line 72 (possible only when `start = 0`), or
dividing `minDiff` by `bestPeriod = 0` at line 80 when the range is empty.
Those three cases are exactly `start = 0 ∨ stop ≤ start`. -/
def findPitchPeriod (s : ℤ → ℤ) (minP maxP prevPeriod : ℕ)
    (prevVoiced : Bool) : Option (ℕ × Bool) :=
  let start := searchStart minP prevPeriod prevVoiced
  let stop := searchStop maxP prevPeriod prevVoiced
  if start = 0 ∨ stop ≤ start then none
  else
    let acc := (List.range' start (stop + 1 - start)).foldl (searchStep s) ⟨0, 1, 0⟩
    let aveDiff := acc.totalDiff / (stop - start)
    some (acc.best, decide (acc.minDiff / acc.best ≤ aveDiff / 2 ∧ 100 < aveDiff))

/-- `computeFilter` (sndadj.c lines 92-114): builds the `period`-length
frame by blending the window before the evaluation point (weight `i/period`)
with the window after it (weight `1 - i/period`), and computes the new read
cursor.  The two `while` loops at lines 108-113 reduce
`prevFilterPos - stepSize` into `[0, period)`, which for `period ≥ 1` is
the Euclidean remainder. -/
def computeFilter (s : ℤ → ℤ) (p : ℕ) (stepSize prevFilterPos : ℕ) :
    List ℚ × ℕ :=
  ((List.range p).map fun (i : ℕ) =>
      ((i : ℚ) / (p : ℚ)) * ((s ((i : ℤ) - (p : ℤ)) : ℤ) : ℚ) +
        (1 - (i : ℚ) / (p : ℚ)) * ((s (i : ℤ) : ℤ) : ℚ),
    (((prevFilterPos : ℤ) - (stepSize : ℤ)) % (p : ℤ)).toNat)

/-- Outcome tag of a modelled loop: normal completion, the fatal
ratio-check abort of `playFilters` (`exit(1)`, sndadj.c lines 124-127),
the fatal division by zero inside `findPitchPeriod`, or fuel exhaustion
(the C loop would still be running). -/
inductive Outcome where
  | ok : Outcome
  | ratioFail : Outcome
  | divZero : Outcome
  | fuelOut : Outcome
deriving DecidableEq

/-- State mutated by the `playFilters` do-while loop (sndadj.c lines
117-139), with two ghost fields: `ratios` records every crossfade ratio the
loop computes (including one that fails the range check), and `blends`
records every floating blended value stored to the output. -/
structure PlayState where
  exact : ℚ
  prevFilterPos : ℕ
  filterPos : ℕ
  out : List ℤ
  ratios : List ℚ
  blends : List ℚ
deriving DecidableEq

/-- C conversion of a `double` to an integer sample (the assignment at
sndadj.c line 128): the fractional part is discarded, truncating toward
zero.  No rounding and no saturation is performed by the code. -/
def cTrunc (q : ℚ) : ℤ := if 0 ≤ q then ⌊q⌋ else ⌈q⌉

/-- The `playFilters` do-while loop (sndadj.c lines 122-137), fuel-indexed.
Each iteration computes the crossfade ratio, aborts if it leaves `[0,1]`,
otherwise emits one output sample, advances both frame cursors with
wraparound, and advances the exact input position by `speed`; the loop
repeats while `exactInputPos - inputPos < stepSize`. -/
def playFiltersAux (speed stepSize inputPos : ℚ) (prevPeriod period : ℕ)
    (prevF curF : List ℚ) : ℕ → PlayState → Outcome × PlayState
  | 0, st => (Outcome.fuelOut, st)
  | Nat.succ n, st =>
    let r := (st.exact - inputPos) / stepSize
    if r < 0 ∨ 1 < r then
      (Outcome.ratioFail, { st with ratios := st.ratios ++ [r] })
    else
      let v := (1 - r) * prevF.getD st.prevFilterPos 0 + r * curF.getD st.filterPos 0
      let st' : PlayState :=
        { exact := st.exact + speed
          prevFilterPos := if st.prevFilterPos + 1 = prevPeriod then 0 else st.prevFilterPos + 1
          filterPos := if st.filterPos + 1 = period then 0 else st.filterPos + 1
          out := st.out ++ [cTrunc v]
          ratios := st.ratios ++ [r]
          blends := st.blends ++ [v] }
      if st'.exact - inputPos < stepSize then
        playFiltersAux speed stepSize inputPos prevPeriod period prevF curF n st'
      else
        (Outcome.ok, st')

/-- Fuel that suffices for the `playFilters` loop whenever `speed > 0`
(proved below): one iteration plus one per `speed`-sized slice of the
remaining distance to the step boundary. -/
def playFuel (speed stepSize d : ℚ) : ℕ := (⌈(stepSize - d) / speed⌉).toNat + 1

/-- The engine's global state: the C globals of sndadj.c lines 30-38 that
the core mutates, plus the accumulated output and the two ghost traces. -/
structure Engine where
  inputPos : ℕ
  exact : ℚ
  period : ℕ
  prevPeriod : ℕ
  filter : List ℚ
  prevFilter : List ℚ
  filterPos : ℕ
  prevFilterPos : ℕ
  prevVoiced : Bool
  out : List ℤ
  ratios : List ℚ
  blends : List ℚ
deriving DecidableEq

/-- `generateSamplesForOneStep` (sndadj.c lines 144-159): take the step
size from the period just finalised, rotate the two frames, estimate the
next period at `inputPos + stepSize`, synthesize the next frame there, play
the crossfade, then advance `inputPos` by the step size. -/
def generateSamplesForOneStep (speed : ℚ) (samples : ℤ → ℤ)
    (minP maxP : ℕ) (e : Engine) : Outcome × Engine :=
  let stepSize := e.period
  let prevPeriod := e.period
  let prevF := e.filter
  let prevFPos := e.filterPos
  let win : ℤ → ℤ := fun k => samples ((e.inputPos : ℤ) + (stepSize : ℤ) + k)
  match findPitchPeriod win minP maxP prevPeriod e.prevVoiced with
  | none => (Outcome.divZero, e)
  | some pv =>
    let cf := computeFilter win pv.1 stepSize prevFPos
    let st0 : PlayState :=
      ⟨e.exact, prevFPos, cf.2, e.out, e.ratios, e.blends⟩
    let fuel := playFuel speed (stepSize : ℚ) (e.exact - (e.inputPos : ℚ))
    let res := playFiltersAux speed (stepSize : ℚ) (e.inputPos : ℚ)
      prevPeriod pv.1 prevF cf.1 fuel st0
    (res.1,
      { inputPos := e.inputPos + stepSize
        exact := res.2.exact
        period := pv.1
        prevPeriod := prevPeriod
        filter := cf.1
        prevFilter := prevF
        filterPos := res.2.filterPos
        prevFilterPos := res.2.prevFilterPos
        prevVoiced := pv.2
        out := res.2.out
        ratios := res.2.ratios
        blends := res.2.blends })

/-- The driver loop `playAll` (sndadj.c lines 162-170), fuel-indexed:
repeat `generateSamplesForOneStep` while `inputPos < inputLength`,
stopping at the first fatal outcome. -/
def playAllAux (speed : ℚ) (samples : ℤ → ℤ)
    (minP maxP inputLength : ℕ) : ℕ → Engine → Outcome × Engine
  | 0, e =>
    if e.inputPos < inputLength then (Outcome.fuelOut, e) else (Outcome.ok, e)
  | Nat.succ n, e =>
    if e.inputPos < inputLength then
      match generateSamplesForOneStep speed samples minP maxP e with
      | (Outcome.ok, e') => playAllAux speed samples minP maxP inputLength n e'
      | (oc, e') => (oc, e')
    else
      (Outcome.ok, e)

/-- Initial engine state as set up by `main` and the head of `playAll`
(sndadj.c lines 164-166 and 215-218): positions start at the `maxPeriod`
guard offset, the period starts at `minPeriod`, both frame buffers are
zero-filled. -/
def initEngine (minP maxP : ℕ) : Engine :=
  { inputPos := maxP
    exact := (maxP : ℚ)
    period := minP
    prevPeriod := 0
    filter := List.replicate maxP 0
    prevFilter := List.replicate maxP 0
    filterPos := 0
    prevFilterPos := 0
    prevVoiced := false
    out := []
    ratios := []
    blends := [] }

/-- `playAll` (sndadj.c lines 162-170) from the initial state. -/
def playAll (speed : ℚ) (samples : ℤ → ℤ)
    (minP maxP inputLength fuel : ℕ) : Outcome × Engine :=
  playAllAux speed samples minP maxP inputLength fuel (initEngine minP maxP)

/-- The sample conversion the spec prescribes for emitted samples (spec
sections 4.3 and 9): round to nearest, then clamp to the representable
16-bit range. -/
def specRoundSat (q : ℚ) : ℤ := max (-32768) (min 32767 ⌊q + 1 / 2⌋)

/-- The frame formula exactly as claim C6 words it: blend the `p` samples
ending one period before the evaluation point (weight `i/p`) with the `p`
samples ending at the evaluation point (weight `1 - i/p`). -/
def specFrame (s : ℤ → ℤ) (p : ℕ) : List ℚ :=
  (List.range p).map fun (i : ℕ) =>
    ((i : ℚ) / (p : ℚ)) * ((s ((i : ℤ) - 2 * (p : ℤ)) : ℤ) : ℚ) +
      (1 - (i : ℚ) / (p : ℚ)) * ((s ((i : ℤ) - (p : ℤ)) : ℤ) : ℚ)

/-- The voicing classification exactly as claim C5 words it: the average
divides the sum of `diff(p)/p` by the number of candidate periods
searched, `stop - start + 1`. -/
def specVoiced (s : ℤ → ℤ) (start stop minDiff best : ℕ) : Bool :=
  let ave := (∑ p ∈ Finset.Icc start stop, diffAt s p / p) / (stop + 1 - start)
  decide (minDiff / best ≤ ave / 2 ∧ 100 < ave)

/-- Closed form of the `aveDiff` quantity the code computes at sndadj.c
lines 72 and 78: the sum of the floor divisions `diff(p)/p` over the
searched range, divided by `stop - start` (one less than the number of
candidates). -/
def aveDiffCode (s : ℤ → ℤ) (start stop : ℕ) : ℕ :=
  (∑ p ∈ Finset.Icc start stop, diffAt s p / p) / (stop - start)

/-- Invariant carried across engine steps by the driver loop: the period
stays inside the configured bounds, the exact read head sits at most
`speed` past the last finalised frame boundary, and the exact head has
advanced from the initial `maxPeriod` offset by exactly `speed` per output
sample emitted so far. -/
def EngineBounds (speed : ℚ) (minP maxP : ℕ) (e : Engine) : Prop :=
  minP ≤ e.period ∧ e.period ≤ maxP ∧
  0 ≤ e.exact - (e.inputPos : ℚ) ∧ e.exact - (e.inputPos : ℚ) ≤ speed ∧
  speed * (e.out.length : ℚ) = e.exact - (maxP : ℚ)

/-- Concrete engine state used for claim C2: positions at the guard
offset 2, current period 1, zero frames of length 1. -/
def engineC2 : Engine :=
  { inputPos := 2, exact := 2, period := 1, prevPeriod := 1,
    filter := [0], prevFilter := [0], filterPos := 0, prevFilterPos := 0,
    prevVoiced := false, out := [], ratios := [], blends := [] }

/-- Concrete sample window used for the C5 counterexample: value 202 at
position -2, zero elsewhere. -/
def w5 : ℤ → ℤ := fun k => if k = -2 then 202 else 0

/-- Concrete sample window used for the C6 counterexample: 5 at position
-1, 7 at position 0, zero elsewhere. -/
def w6 : ℤ → ℤ := fun k => if k = -1 then 5 else if k = 0 then 7 else 0

/-- Loop invariant of the candidate-period search in `findPitchPeriod`,
after the candidates `start, start+1, ..., start+cnt-1` have been
processed: before the first candidate the accumulator still holds the
sentinel `bestPeriod = 0, minDiff = 1`; afterwards `best` is the first
(smallest) candidate processed so far whose ratio `diff(p)/p` is minimal,
`minDiff` is its diff, and `totalDiff` is the running sum of the floor
divisions `diff(p)/p`. -/
def SearchInv (s : ℤ → ℤ) (start cnt : ℕ) (acc : SearchAcc) : Prop :=
  acc.totalDiff = ∑ q ∈ Finset.Ico start (start + cnt), diffAt s q / q ∧
  (cnt = 0 → acc.best = 0 ∧ acc.minDiff = 1) ∧
  (0 < cnt →
    start ≤ acc.best ∧ acc.best < start + cnt ∧
    acc.minDiff = diffAt s acc.best ∧
    (∀ q, start ≤ q → q < start + cnt →
      diffAt s acc.best * q ≤ diffAt s q * acc.best) ∧
    (∀ q, start ≤ q → q < acc.best →
      diffAt s acc.best * q < diffAt s q * acc.best))

/-! ### Generic helper lemmas -/

theorem getD_mem_prop {α : Type} (P : α → Prop) :
    ∀ (l : List α) (n : ℕ) (d : α), (∀ x ∈ l, P x) → P d → P (l.getD n d)
  | [], n, d, _, hd => by simpa using hd
  | x :: xs, 0, d, hl, _ => by simpa using hl x (by simp)
  | x :: xs, Nat.succ n, d, hl, hd => by
    simpa using getD_mem_prop P xs n d (fun y hy => hl y (by simp [hy])) hd

theorem convex_combo_bounds {lo hi r a b : ℚ} (h0 : 0 ≤ r) (h1 : r ≤ 1)
    (ha : lo ≤ a ∧ a ≤ hi) (hb : lo ≤ b ∧ b ≤ hi) :
    lo ≤ (1 - r) * a + r * b ∧ (1 - r) * a + r * b ≤ hi := by
  constructor
  · nlinarith [ha.1, hb.1]
  · nlinarith [ha.2, hb.2]

theorem cTrunc_bounds {q : ℚ} (h1 : -32768 ≤ q) (h2 : q ≤ 32767) :
    -32768 ≤ cTrunc q ∧ cTrunc q ≤ 32767 := by
  unfold cTrunc
  by_cases h : 0 ≤ q
  · rw [if_pos h]
    constructor
    · have : (0 : ℤ) ≤ ⌊q⌋ := by exact_mod_cast Int.le_floor.2 (by exact_mod_cast h)
      omega
    · have : (⌊q⌋ : ℚ) ≤ (32767 : ℤ) := le_trans (Int.floor_le q) (by exact_mod_cast h2)
      exact_mod_cast this
  · rw [if_neg h]
    push_neg at h
    constructor
    · have : ((-32768 : ℤ) : ℚ) ≤ (⌈q⌉ : ℚ) := le_trans (by exact_mod_cast h1) (Int.le_ceil q)
      exact_mod_cast this
    · have : ⌈q⌉ ≤ (0 : ℤ) := Int.ceil_le.2 (by exact_mod_cast h.le)
      omega

/-! ### Lemmas about the playFilters loop -/

theorem playFilters_ratios_in_range (speed stepSize inputPos : ℚ) (pp p : ℕ)
    (prevF curF : List ℚ) (hsp : 0 < speed) (hss : 0 < stepSize) :
    ∀ (fuel : ℕ) (st : PlayState), 0 ≤ st.exact - inputPos →
      st.exact - inputPos ≤ stepSize →
      (∀ x ∈ st.ratios, 0 ≤ x ∧ x ≤ 1) →
      (∀ x ∈ (playFiltersAux speed stepSize inputPos pp p prevF curF fuel st).2.ratios,
          0 ≤ x ∧ x ≤ 1) ∧
      (playFiltersAux speed stepSize inputPos pp p prevF curF fuel st).1 ≠ Outcome.ratioFail := by
  intro fuel
  induction fuel with
  | zero =>
    intro st _ _ hall
    exact ⟨hall, by simp [playFiltersAux]⟩
  | succ n ih =>
    intro st h0 h1 hall
    have hr0 : 0 ≤ (st.exact - inputPos) / stepSize := div_nonneg h0 hss.le
    have hr1 : (st.exact - inputPos) / stepSize ≤ 1 := (div_le_one hss).2 h1
    have hcond : ¬((st.exact - inputPos) / stepSize < 0 ∨
        1 < (st.exact - inputPos) / stepSize) := by
      push_neg
      exact ⟨hr0, hr1⟩
    rw [playFiltersAux]
    simp only [hcond, if_false, if_neg hcond]
    set st' : PlayState :=
      { exact := st.exact + speed
        prevFilterPos := if st.prevFilterPos + 1 = pp then 0 else st.prevFilterPos + 1
        filterPos := if st.filterPos + 1 = p then 0 else st.filterPos + 1
        out := st.out ++ [cTrunc ((1 - (st.exact - inputPos) / stepSize) *
          prevF.getD st.prevFilterPos 0 +
          (st.exact - inputPos) / stepSize * curF.getD st.filterPos 0)]
        ratios := st.ratios ++ [(st.exact - inputPos) / stepSize]
        blends := st.blends ++ [(1 - (st.exact - inputPos) / stepSize) *
          prevF.getD st.prevFilterPos 0 +
          (st.exact - inputPos) / stepSize * curF.getD st.filterPos 0] } with hst'
    have hall' : ∀ x ∈ st'.ratios, 0 ≤ x ∧ x ≤ 1 := by
      intro x hx
      rw [hst'] at hx
      simp only [List.mem_append, List.mem_singleton] at hx
      rcases hx with hx | hx
      · exact hall x hx
      · subst hx; exact ⟨hr0, hr1⟩
    by_cases hb : st'.exact - inputPos < stepSize
    · rw [if_pos hb]
      refine ih st' ?_ hb.le hall'
      rw [hst']
      simp only
      linarith
    · rw [if_neg hb]
      exact ⟨hall', by simp⟩

theorem playFilters_abort_on_bad (speed stepSize inputPos : ℚ) (pp p : ℕ)
    (prevF curF : List ℚ) :
    ∀ (fuel : ℕ) (st : PlayState), (∀ x ∈ st.ratios, 0 ≤ x ∧ x ≤ 1) →
      (∃ x ∈ (playFiltersAux speed stepSize inputPos pp p prevF curF fuel st).2.ratios,
          ¬(0 ≤ x ∧ x ≤ 1)) →
      (playFiltersAux speed stepSize inputPos pp p prevF curF fuel st).1 =
        Outcome.ratioFail := by
  intro fuel
  induction fuel with
  | zero =>
    intro st hall hex
    rw [playFiltersAux] at hex ⊢
    obtain ⟨x, hx, hbad⟩ := hex
    exact absurd (hall x hx) hbad
  | succ n ih =>
    intro st hall hex
    rw [playFiltersAux] at hex ⊢
    by_cases hcond : (st.exact - inputPos) / stepSize < 0 ∨
        1 < (st.exact - inputPos) / stepSize
    · rw [if_pos hcond] at hex ⊢
    · rw [if_neg hcond] at hex ⊢
      push_neg at hcond
      have hall' : ∀ x ∈ st.ratios ++ [(st.exact - inputPos) / stepSize],
          0 ≤ x ∧ x ≤ 1 := by
        intro x hx
        simp only [List.mem_append, List.mem_singleton] at hx
        rcases hx with hx | hx
        · exact hall x hx
        · subst hx; exact hcond
      by_cases hb : st.exact + speed - inputPos < stepSize
      · rw [if_pos hb] at hex ⊢
        exact ih _ hall' hex
      · rw [if_neg hb] at hex ⊢
        obtain ⟨x, hx, hbad⟩ := hex
        exact absurd (hall' x hx) hbad

theorem playFilters_ok_spec (speed stepSize inputPos : ℚ) (pp p : ℕ)
    (prevF curF : List ℚ) (hss : 0 < stepSize) :
    ∀ (fuel : ℕ) (st : PlayState),
      (playFiltersAux speed stepSize inputPos pp p prevF curF fuel st).1 = Outcome.ok →
      (0 ≤ st.exact - inputPos ∧ st.exact - inputPos ≤ stepSize) ∧
      stepSize ≤ (playFiltersAux speed stepSize inputPos pp p prevF curF fuel st).2.exact - inputPos ∧
      (playFiltersAux speed stepSize inputPos pp p prevF curF fuel st).2.exact - inputPos ≤
        stepSize + speed ∧
      (st.exact - inputPos < stepSize →
        (playFiltersAux speed stepSize inputPos pp p prevF curF fuel st).2.exact - inputPos <
          stepSize + speed) ∧
      st.out.length < (playFiltersAux speed stepSize inputPos pp p prevF curF fuel st).2.out.length ∧
      speed * (((playFiltersAux speed stepSize inputPos pp p prevF curF fuel st).2.out.length : ℚ) -
          (st.out.length : ℚ)) =
        (playFiltersAux speed stepSize inputPos pp p prevF curF fuel st).2.exact - st.exact := by
  intro fuel
  induction fuel with
  | zero =>
    intro st hok
    rw [playFiltersAux] at hok
    exact absurd hok (by simp)
  | succ n ih =>
    intro st hok
    rw [playFiltersAux] at hok ⊢
    by_cases hcond : (st.exact - inputPos) / stepSize < 0 ∨
        1 < (st.exact - inputPos) / stepSize
    · rw [if_pos hcond] at hok
      exact absurd hok (by simp)
    · rw [if_neg hcond] at hok ⊢
      push_neg at hcond
      have hd0 : 0 ≤ st.exact - inputPos := by
        have := mul_nonneg hcond.1 hss.le
        rwa [div_mul_cancel₀ _ (ne_of_gt hss)] at this
      have hd1 : st.exact - inputPos ≤ stepSize := (div_le_one hss).1 hcond.2
      by_cases hb : st.exact + speed - inputPos < stepSize
      · rw [if_pos hb] at hok ⊢
        have H := ih _ hok
        refine ⟨⟨hd0, hd1⟩, H.2.1, H.2.2.1, fun _ => H.2.2.2.1 (by simpa using hb), ?_, ?_⟩
        · refine lt_trans ?_ H.2.2.2.2.1
          simp
        · have hacc := H.2.2.2.2.2
          simp only [List.length_append, List.length_singleton, Nat.cast_add,
            Nat.cast_one] at hacc ⊢
          ring_nf at hacc ⊢
          linarith [hacc]
      · rw [if_neg hb] at hok ⊢
        push_neg at hb
        refine ⟨⟨hd0, hd1⟩, by simpa using hb, ?_, fun hlt => ?_, ?_, ?_⟩
        · dsimp only
          linarith
        · dsimp only
          linarith
        · simp
        · simp only [List.length_append, List.length_singleton, Nat.cast_add, Nat.cast_one]
          ring_nf

theorem playFilters_blends_spec (speed stepSize inputPos : ℚ) (pp p : ℕ)
    (prevF curF : List ℚ)
    (hprev : ∀ x ∈ prevF, -32768 ≤ x ∧ x ≤ 32767)
    (hcur : ∀ x ∈ curF, -32768 ≤ x ∧ x ≤ 32767) :
    ∀ (fuel : ℕ) (st : PlayState), st.out = st.blends.map cTrunc →
      (∀ b ∈ st.blends, -32768 ≤ b ∧ b ≤ 32767) →
      (playFiltersAux speed stepSize inputPos pp p prevF curF fuel st).2.out =
        (playFiltersAux speed stepSize inputPos pp p prevF curF fuel st).2.blends.map cTrunc ∧
      ∀ b ∈ (playFiltersAux speed stepSize inputPos pp p prevF curF fuel st).2.blends,
        -32768 ≤ b ∧ b ≤ 32767 := by
  intro fuel
  induction fuel with
  | zero =>
    intro st hsync hbnd
    rw [playFiltersAux]
    exact ⟨hsync, hbnd⟩
  | succ n ih =>
    intro st hsync hbnd
    rw [playFiltersAux]
    by_cases hcond : (st.exact - inputPos) / stepSize < 0 ∨
        1 < (st.exact - inputPos) / stepSize
    · rw [if_pos hcond]
      exact ⟨hsync, hbnd⟩
    · rw [if_neg hcond]
      push_neg at hcond
      have hv : -32768 ≤ (1 - (st.exact - inputPos) / stepSize) * prevF.getD st.prevFilterPos 0 +
          (st.exact - inputPos) / stepSize * curF.getD st.filterPos 0 ∧
          (1 - (st.exact - inputPos) / stepSize) * prevF.getD st.prevFilterPos 0 +
            (st.exact - inputPos) / stepSize * curF.getD st.filterPos 0 ≤ 32767 := by
        refine convex_combo_bounds hcond.1 hcond.2 ?_ ?_
        · exact getD_mem_prop (fun x => -32768 ≤ x ∧ x ≤ 32767) prevF _ 0 hprev (by norm_num)
        · exact getD_mem_prop (fun x => -32768 ≤ x ∧ x ≤ 32767) curF _ 0 hcur (by norm_num)
      have hsync' : st.out ++ [cTrunc ((1 - (st.exact - inputPos) / stepSize) *
          prevF.getD st.prevFilterPos 0 +
          (st.exact - inputPos) / stepSize * curF.getD st.filterPos 0)] =
          (st.blends ++ [(1 - (st.exact - inputPos) / stepSize) *
            prevF.getD st.prevFilterPos 0 +
            (st.exact - inputPos) / stepSize * curF.getD st.filterPos 0]).map cTrunc := by
        rw [List.map_append, hsync]
        simp
      have hbnd' : ∀ b ∈ st.blends ++ [(1 - (st.exact - inputPos) / stepSize) *
          prevF.getD st.prevFilterPos 0 +
          (st.exact - inputPos) / stepSize * curF.getD st.filterPos 0],
          -32768 ≤ b ∧ b ≤ 32767 := by
        intro b hbm
        simp only [List.mem_append, List.mem_singleton] at hbm
        rcases hbm with hbm | hbm
        · exact hbnd b hbm
        · subst hbm; exact hv
      by_cases hb : st.exact + speed - inputPos < stepSize
      · rw [if_pos hb]
        exact ih _ hsync' hbnd'
      · rw [if_neg hb]
        exact ⟨hsync', hbnd'⟩

theorem playFilters_fuel_enough (speed stepSize inputPos : ℚ) (pp p : ℕ)
    (prevF curF : List ℚ) (hsp : 0 < speed) :
    ∀ (k : ℕ) (st : PlayState), stepSize - (st.exact - inputPos) ≤ k * speed →
      (playFiltersAux speed stepSize inputPos pp p prevF curF (k + 1) st).1 ≠
        Outcome.fuelOut := by
  intro k
  induction k with
  | zero =>
    intro st hk
    rw [playFiltersAux]
    by_cases hcond : (st.exact - inputPos) / stepSize < 0 ∨
        1 < (st.exact - inputPos) / stepSize
    · rw [if_pos hcond]
      simp
    · rw [if_neg hcond]
      have hexit : ¬(st.exact + speed - inputPos < stepSize) := by
        simp only [Nat.cast_zero, zero_mul] at hk
        push_neg
        linarith
      rw [if_neg hexit]
      simp
  | succ m ih =>
    intro st hk
    rw [playFiltersAux]
    by_cases hcond : (st.exact - inputPos) / stepSize < 0 ∨
        1 < (st.exact - inputPos) / stepSize
    · rw [if_pos hcond]
      simp
    · rw [if_neg hcond]
      by_cases hb : st.exact + speed - inputPos < stepSize
      · rw [if_pos hb]
        refine ih _ ?_
        dsimp only
        push_cast at hk ⊢
        linarith
      · rw [if_neg hb]
        simp

theorem playFuel_enough (speed stepSize inputPos : ℚ) (pp p : ℕ)
    (prevF curF : List ℚ) (hsp : 0 < speed) (st : PlayState) :
    (playFiltersAux speed stepSize inputPos pp p prevF curF
      (playFuel speed stepSize (st.exact - inputPos)) st).1 ≠ Outcome.fuelOut := by
  unfold playFuel
  apply playFilters_fuel_enough speed stepSize inputPos pp p prevF curF hsp
  set x := stepSize - (st.exact - inputPos) with hx
  have h1 : x / speed ≤ ((⌈x / speed⌉.toNat : ℤ) : ℚ) := by
    refine le_trans (Int.le_ceil _) ?_
    exact_mod_cast Int.self_le_toNat _
  have h2 : x / speed * speed = x := div_mul_cancel₀ _ (ne_of_gt hsp)
  have h3 : x / speed * speed ≤ ((⌈x / speed⌉.toNat : ℤ) : ℚ) * speed :=
    mul_le_mul_of_nonneg_right h1 hsp.le
  rw [h2] at h3
  exact_mod_cast h3

/-! ### Lemmas about the pitch period search loop -/

theorem searchStep_inv (s : ℤ → ℤ) (start : ℕ) (hs : 1 ≤ start) (cnt : ℕ)
    (acc : SearchAcc) (h : SearchInv s start cnt acc) :
    SearchInv s start (cnt + 1) (searchStep s acc (start + cnt)) := by
  obtain ⟨htot, hzero, hpos⟩ := h
  have hppos : 1 ≤ start + cnt := le_trans hs (Nat.le_add_right _ _)
  unfold searchStep
  by_cases hupd : diffAt s (start + cnt) * acc.best < acc.minDiff * (start + cnt)
  · rw [if_pos hupd]
    refine ⟨?_, by omega, fun _ => ?_⟩
    · dsimp only
      rw [htot, show start + (cnt + 1) = (start + cnt) + 1 from rfl,
        Finset.sum_Ico_succ_top (Nat.le_add_right _ _)]
    · rcases Nat.eq_zero_or_pos cnt with hcnt0 | hcntpos
      · subst hcnt0
        refine ⟨Nat.le_add_right _ _, by dsimp only; omega, rfl, ?_, ?_⟩
        · intro q hq1 hq2
          have : q = start := by omega
          subst this
          exact le_refl _
        · intro q hq1 hq2
          dsimp only at hq2
          omega
      · obtain ⟨hb1, hb2, hmin, hle, hlt⟩ := hpos hcntpos
        have hbpos : 0 < acc.best := lt_of_lt_of_le Nat.zero_lt_one (le_trans hs hb1)
        have key : ∀ q, start ≤ q → q < start + cnt →
            diffAt s (start + cnt) * q < diffAt s q * (start + cnt) := by
          intro q hq1 hq2
          have hqpos : 0 < q := lt_of_lt_of_le Nat.zero_lt_one (le_trans hs hq1)
          have step1 : diffAt s (start + cnt) * acc.best * q <
              acc.minDiff * (start + cnt) * q :=
            mul_lt_mul_of_pos_right hupd hqpos
          have step2 : diffAt s acc.best * q * (start + cnt) ≤
              diffAt s q * acc.best * (start + cnt) :=
            Nat.mul_le_mul_right _ (hle q hq1 hq2)
          have chain : diffAt s (start + cnt) * q * acc.best <
              diffAt s q * (start + cnt) * acc.best := by
            calc diffAt s (start + cnt) * q * acc.best
                = diffAt s (start + cnt) * acc.best * q := by ring
              _ < acc.minDiff * (start + cnt) * q := step1
              _ = diffAt s acc.best * q * (start + cnt) := by rw [hmin]; ring
              _ ≤ diffAt s q * acc.best * (start + cnt) := step2
              _ = diffAt s q * (start + cnt) * acc.best := by ring
          exact lt_of_mul_lt_mul_right chain (Nat.zero_le _)
        refine ⟨Nat.le_add_right _ _, by dsimp only; omega, rfl, ?_, ?_⟩
        · intro q hq1 hq2
          dsimp only at hq2 ⊢
          rcases Nat.lt_or_ge q (start + cnt) with hq3 | hq3
          · exact le_of_lt (key q hq1 hq3)
          · have : q = start + cnt := by omega
            subst this
            exact le_refl _
        · intro q hq1 hq2
          dsimp only at hq2 ⊢
          exact key q hq1 hq2
  · rw [if_neg hupd]
    push_neg at hupd
    refine ⟨?_, by omega, fun _ => ?_⟩
    · dsimp only
      rw [htot, show start + (cnt + 1) = (start + cnt) + 1 from rfl,
        Finset.sum_Ico_succ_top (Nat.le_add_right _ _)]
    · rcases Nat.eq_zero_or_pos cnt with hcnt0 | hcntpos
      · exfalso
        subst hcnt0
        obtain ⟨hb0, hm1⟩ := hzero rfl
        rw [hb0, hm1] at hupd
        simp only [Nat.mul_zero, Nat.one_mul] at hupd
        omega
      · obtain ⟨hb1, hb2, hmin, hle, hlt⟩ := hpos hcntpos
        refine ⟨hb1, by dsimp only; omega, hmin, ?_, hlt⟩
        intro q hq1 hq2
        rcases Nat.lt_or_ge q (start + cnt) with hq3 | hq3
        · exact hle q hq1 hq3
        · have : q = start + cnt := by omega
          subst this
          rw [hmin] at hupd
          exact hupd

theorem searchFold_inv (s : ℤ → ℤ) (start : ℕ) (hs : 1 ≤ start) :
    ∀ (m cnt : ℕ) (acc : SearchAcc), SearchInv s start cnt acc →
      SearchInv s start (cnt + m)
        ((List.range' (start + cnt) m).foldl (searchStep s) acc) := by
  intro m
  induction m with
  | zero =>
    intro cnt acc h
    simpa using h
  | succ k ih =>
    intro cnt acc h
    rw [List.range'_succ, List.foldl_cons]
    have h2 := ih (cnt + 1) _ (searchStep_inv s start hs cnt acc h)
    have harith : cnt + 1 + k = cnt + (k + 1) := by omega
    rw [harith] at h2
    exact h2

theorem searchStart_ge (minP pp : ℕ) (pv : Bool) : minP ≤ searchStart minP pp pv := by
  unfold searchStart
  cases pv
  · exact le_refl _
  · exact le_max_left _ _

theorem searchStop_le (maxP pp : ℕ) (pv : Bool) : searchStop maxP pp pv ≤ maxP := by
  unfold searchStop
  cases pv
  · exact le_refl _
  · exact min_le_left _ _

theorem findPitchPeriod_spec (s : ℤ → ℤ) (minP maxP pp : ℕ) (pv : Bool)
    (h1 : 1 ≤ searchStart minP pp pv)
    (h2 : searchStart minP pp pv < searchStop maxP pp pv) :
    ∃ acc : SearchAcc,
      findPitchPeriod s minP maxP pp pv =
        some (acc.best, decide (acc.minDiff / acc.best ≤
          acc.totalDiff / (searchStop maxP pp pv - searchStart minP pp pv) / 2 ∧
          100 < acc.totalDiff / (searchStop maxP pp pv - searchStart minP pp pv))) ∧
      SearchInv s (searchStart minP pp pv)
        (searchStop maxP pp pv + 1 - searchStart minP pp pv) acc := by
  have hinit : SearchInv s (searchStart minP pp pv) 0 (⟨0, 1, 0⟩ : SearchAcc) := by
    refine ⟨?_, fun _ => ⟨rfl, rfl⟩, fun hc => absurd hc (by omega)⟩
    simp
  have hfold := searchFold_inv s (searchStart minP pp pv) h1
    (searchStop maxP pp pv + 1 - searchStart minP pp pv) 0 ⟨0, 1, 0⟩ hinit
  rw [Nat.add_zero, Nat.zero_add] at hfold
  refine ⟨(List.range' (searchStart minP pp pv)
    (searchStop maxP pp pv + 1 - searchStart minP pp pv)).foldl (searchStep s) ⟨0, 1, 0⟩,
    ?_, hfold⟩
  unfold findPitchPeriod
  rw [if_neg (by push_neg; omega)]

theorem diffAt_const (s : ℤ → ℤ) (c : ℤ) (hc : ∀ k, s k = c) (p : ℕ) :
    diffAt s p = 0 := by
  unfold diffAt
  refine Finset.sum_eq_zero fun i _ => ?_
  rw [hc, hc]
  simp

/-! ### Claim C4 -/

/-- C4, counterexample: with `minPeriod = maxPeriod = 1` (a valid, non-empty
search range) and an all-zero window, the previous estimate being period 1
unvoiced, `findPitchPeriod` does not return at all: the C code divides
`totalDiff` by `stop - start = 0` at line 78 and the process dies, so in
particular it does not return the minimizing period as the claim states. -/
theorem c4_search_counterexample :
    findPitchPeriod (fun _ => 0) 1 1 1 false = none := by decide

/-- C4, amended: additionally assuming that the searched range holds at
least two candidates (`start < stop`, without which the code crashes on a
division by zero), `findPitchPeriod` returns the smallest period of the
searched range minimizing `diff(p)/p` (stated multiplicatively:
`diff(b)*q ≤ diff(q)*b` for every candidate `q`, strictly so for every
`q < b`), and the returned period lies in `[minPeriod, maxPeriod]`. -/
theorem c4_search_amended (s : ℤ → ℤ) (minP maxP pp : ℕ) (pv : Bool)
    (hmin : 1 ≤ minP) (hpp : pv = true → minP ≤ pp ∧ pp ≤ maxP)
    (hrange : searchStart minP pp pv < searchStop maxP pp pv) :
    ∃ b v, findPitchPeriod s minP maxP pp pv = some (b, v) ∧
      minP ≤ b ∧ b ≤ maxP ∧
      searchStart minP pp pv ≤ b ∧ b ≤ searchStop maxP pp pv ∧
      (∀ q, searchStart minP pp pv ≤ q → q ≤ searchStop maxP pp pv →
        diffAt s b * q ≤ diffAt s q * b) ∧
      ∀ q, searchStart minP pp pv ≤ q → q < b → diffAt s b * q < diffAt s q * b := by
  have h1 : 1 ≤ searchStart minP pp pv := le_trans hmin (searchStart_ge _ _ _)
  obtain ⟨acc, heq, hinv⟩ := findPitchPeriod_spec s minP maxP pp pv h1 hrange
  obtain ⟨htot, hzero, hposf⟩ := hinv
  obtain ⟨hb1, hb2, hmind, hle, hlt⟩ := hposf (by omega)
  have hss : searchStart minP pp pv +
      (searchStop maxP pp pv + 1 - searchStart minP pp pv) =
      searchStop maxP pp pv + 1 := by omega
  rw [hss] at hb2 hle
  refine ⟨acc.best, _, heq, le_trans (searchStart_ge _ _ _) hb1,
    le_trans (by omega) (searchStop_le maxP pp pv), hb1, by omega, ?_, hlt⟩
  intro q hq1 hq2
  exact hle q hq1 (by omega)

/-- C4, witness: on a concrete zero window with `minPeriod = 1`,
`maxPeriod = 2`, previous period 1 unvoiced, the amended theorem applies
and the estimator returns a value. -/
theorem c4_search_witness :
    (findPitchPeriod (fun _ => 0) 1 2 1 false).isSome = true := by
  obtain ⟨b, v, heq, _⟩ :=
    c4_search_amended (fun _ => 0) 1 2 1 false (by decide) (by simp) (by decide)
  rw [heq]
  rfl

/-! ### Claim C5 -/

/-- C5, counterexample: on the window `w5` (202 at position -2, zero
elsewhere) with range `[1,2]`, previous period 1 unvoiced, the code
classifies the window as voiced (`aveDiff = (0/1 + 202/2) / (2-1) = 101`,
`101 > 100` and `0 ≤ 101/2`), while the claim's formula — dividing the sum
by the number of candidates, `(0 + 101) / 2 = 50` — classifies it
unvoiced; the divisor the code uses is `stop - start`, one less than the
number of candidates. -/
theorem c5_voicing_counterexample :
    findPitchPeriod w5 1 2 1 false = some (1, true) ∧
    specVoiced w5 (searchStart 1 1 false) (searchStop 2 1 false)
      (diffAt w5 1) 1 = false := by
  constructor
  · decide
  · decide

/-- C5, amended: after a call to `findPitchPeriod` whose searched range
holds at least two candidates, the stored voiced classification is true
exactly when `minDiff/bestPeriod ≤ aveDiff/2` and `aveDiff > 100`, where
all divisions are integer floor divisions and `aveDiff` is the sum over
the searched range of `diff(p)/p` divided by `stop - start` — one less
than the number of candidates, not the number of candidates. -/
theorem c5_voicing_amended (s : ℤ → ℤ) (minP maxP pp : ℕ) (pv : Bool)
    (hmin : 1 ≤ minP)
    (hrange : searchStart minP pp pv < searchStop maxP pp pv) :
    ∀ b v, findPitchPeriod s minP maxP pp pv = some (b, v) →
      (v = true ↔
        (diffAt s b / b ≤
          aveDiffCode s (searchStart minP pp pv) (searchStop maxP pp pv) / 2 ∧
        100 < aveDiffCode s (searchStart minP pp pv) (searchStop maxP pp pv))) := by
  have h1 : 1 ≤ searchStart minP pp pv := le_trans hmin (searchStart_ge _ _ _)
  obtain ⟨acc, heq, hinv⟩ := findPitchPeriod_spec s minP maxP pp pv h1 hrange
  obtain ⟨htot, hzero, hposf⟩ := hinv
  obtain ⟨hb1, hb2, hmind, hle, hlt⟩ := hposf (by omega)
  intro b v hbv
  rw [heq] at hbv
  rw [Option.some.injEq, Prod.mk.injEq] at hbv
  obtain ⟨hb, hv⟩ := hbv
  subst hb
  subst hv
  have hss : searchStart minP pp pv +
      (searchStop maxP pp pv + 1 - searchStart minP pp pv) =
      searchStop maxP pp pv + 1 := by omega
  rw [hss] at htot
  have hIcc : Finset.Ico (searchStart minP pp pv) (searchStop maxP pp pv + 1) =
      Finset.Icc (searchStart minP pp pv) (searchStop maxP pp pv) :=
    Nat.Ico_succ_right _ _
  rw [hIcc] at htot
  have hAve : aveDiffCode s (searchStart minP pp pv) (searchStop maxP pp pv) =
      acc.totalDiff / (searchStop maxP pp pv - searchStart minP pp pv) := by
    rw [aveDiffCode, htot]
  rw [decide_eq_true_eq, hmind, hAve]

/-- C5, witness: the amended characterization applied to the window `w5`,
where the code's average is `101` and the classification comes out
voiced. -/
theorem c5_voicing_witness :
    (true = true) ↔
      (diffAt w5 1 / 1 ≤ aveDiffCode w5 (searchStart 1 1 false) (searchStop 2 1 false) / 2 ∧
      100 < aveDiffCode w5 (searchStart 1 1 false) (searchStop 2 1 false)) := by
  exact c5_voicing_amended w5 1 2 1 false (by decide) (by decide) 1 true (by decide)

/-! ### Claim C7 -/

/-- C7, counterexample: an all-equal window with the valid non-empty
search range `[2,2]` (`minPeriod = maxPeriod = 2 ≥ 1`) makes the C code
divide by `stop - start = 0` at line 78, killing the process, so the
claim's "does not crash and returns a deterministic period" fails on a
single-candidate range. -/
theorem c7_constant_counterexample :
    findPitchPeriod (fun _ => 7) 2 2 2 false = none := by decide

/-- C7, amended: on a window in which all samples are equal, provided the
searched range holds at least two candidates (`start < stop`; with a
single candidate the code crashes on a division by zero),
`findPitchPeriod` returns the smallest candidate of the range — which is
at least `minPeriod`, hence never 0 — and classifies the window as
unvoiced. -/
theorem c7_constant_amended (s : ℤ → ℤ) (c : ℤ) (minP maxP pp : ℕ) (pv : Bool)
    (hc : ∀ k, s k = c) (hmin : 1 ≤ minP)
    (hrange : searchStart minP pp pv < searchStop maxP pp pv) :
    findPitchPeriod s minP maxP pp pv = some (searchStart minP pp pv, false) ∧
    minP ≤ searchStart minP pp pv ∧ 0 < searchStart minP pp pv := by
  have h1 : 1 ≤ searchStart minP pp pv := le_trans hmin (searchStart_ge _ _ _)
  obtain ⟨acc, heq, hinv⟩ := findPitchPeriod_spec s minP maxP pp pv h1 hrange
  obtain ⟨htot, hzero, hposf⟩ := hinv
  obtain ⟨hb1, hb2, hmind, hle, hlt⟩ := hposf (by omega)
  have hdz : ∀ p, diffAt s p = 0 := diffAt_const s c hc
  have hbest : acc.best = searchStart minP pp pv := by
    by_contra hne
    have hlt' := hlt (searchStart minP pp pv) (le_refl _) (by omega)
    rw [hdz, hdz] at hlt'
    simp at hlt'
  have htot0 : acc.totalDiff = 0 := by
    rw [htot]
    exact Finset.sum_eq_zero fun q _ => by rw [hdz]; exact Nat.zero_div q
  refine ⟨?_, searchStart_ge _ _ _, h1⟩
  rw [heq, hbest]
  have hfalse : decide (acc.minDiff / searchStart minP pp pv ≤
      acc.totalDiff / (searchStop maxP pp pv - searchStart minP pp pv) / 2 ∧
      100 < acc.totalDiff / (searchStop maxP pp pv - searchStart minP pp pv)) = false := by
    rw [htot0]
    simp
  rw [hfalse]

/-- C7, witness: the amended theorem applied to a concrete constant window
of value 7 with range `[1,2]`: the estimator returns the smallest
candidate, unvoiced, without crashing. -/
theorem c7_constant_witness :
    findPitchPeriod (fun _ => 7) 1 2 2 false = some (searchStart 1 2 false, false) :=
  (c7_constant_amended (fun _ => 7) 7 1 2 2 false (fun _ => rfl) (by decide) (by decide)).1

/-! ### Claim C6 -/

/-- C6, counterexample: for period 1 the code's frame holds the sample at
the evaluation point itself (`w6 0 = 7`, from the window *following* the
evaluation point), while the claim's formula — blending the window ending
at the evaluation point with the one ending one period earlier — yields
the sample just before it (`w6 (-1) = 5`).  The code blends the windows
`[-p,0)` and `[0,p)`, not `[-2p,-p)` and `[-p,0)`. -/
theorem c6_frame_counterexample :
    (computeFilter w6 1 5 0).1 = [7] ∧ specFrame w6 1 = [5] ∧ (7 : ℚ) ≠ 5 := by
  refine ⟨?_, ?_, by norm_num⟩
  · norm_num [computeFilter, w6, List.range_succ]
  · norm_num [specFrame, w6, List.range_succ]

/-- C6, amended: for every period `p ≥ 1` the synthesized frame satisfies
`frame[i] = (i/p) * before[i] + (1 - i/p) * after[i]`, where `before` is
the `p` samples immediately preceding the evaluation point
(`s[-p], ..., s[-1]`) and `after` the `p` samples at and after it
(`s[0], ..., s[p-1]`); and the new frame's read cursor is the outgoing
cursor minus the step size reduced modulo `p` into `[0, p)`. -/
theorem c6_frame_amended (s : ℤ → ℤ) (p stepSize pfp : ℕ) (hp : 1 ≤ p) :
    (∀ i, i < p → (computeFilter s p stepSize pfp).1.getD i 0 =
      ((i : ℚ) / (p : ℚ)) * ((s ((i : ℤ) - (p : ℤ)) : ℤ) : ℚ) +
        (1 - (i : ℚ) / (p : ℚ)) * ((s (i : ℤ) : ℤ) : ℚ)) ∧
    ((computeFilter s p stepSize pfp).2 : ℤ) =
      ((pfp : ℤ) - (stepSize : ℤ)) % (p : ℤ) ∧
    (computeFilter s p stepSize pfp).2 < p := by
  have hp0 : (0 : ℤ) < (p : ℤ) := by exact_mod_cast hp
  have hnn : 0 ≤ ((pfp : ℤ) - (stepSize : ℤ)) % (p : ℤ) :=
    Int.emod_nonneg _ (ne_of_gt hp0)
  have hlt : ((pfp : ℤ) - (stepSize : ℤ)) % (p : ℤ) < (p : ℤ) :=
    Int.emod_lt_of_pos _ hp0
  refine ⟨?_, ?_, ?_⟩
  · intro i hi
    show (List.map _ (List.range p)).getD i 0 = _
    rw [List.getD_eq_getElem?_getD, List.getElem?_map, List.getElem?_range hi]
    rfl
  · show ((((pfp : ℤ) - (stepSize : ℤ)) % (p : ℤ)).toNat : ℤ) = _
    exact Int.toNat_of_nonneg hnn
  · show ((((pfp : ℤ) - (stepSize : ℤ)) % (p : ℤ)).toNat) < p
    omega

/-- C6, witness: the cursor handoff at period 2, step size 3, outgoing
cursor 1 lands inside `[0, 2)`. -/
theorem c6_frame_witness : (computeFilter w6 2 3 1).2 < 2 :=
  (c6_frame_amended w6 2 3 1 (by omega)).2.2

/-! ### Claim C3 -/

/-- C3, counterexample: the blended value `3/2` (previous frame value
`3/2` at crossfade ratio 0) is stored through C's default double-to-short
conversion, which truncates toward zero and yields 1, while the claim's
round-to-nearest-then-saturate conversion yields 2.  The code performs no
rounding and no saturation at sndadj.c line 128. -/
theorem c3_rounding_counterexample :
    (playFiltersAux 1 1 0 1 1 [3 / 2] [0] 1 ⟨0, 0, 0, [], [], []⟩).2.out = [1] ∧
    specRoundSat (3 / 2) = 2 ∧ (1 : ℤ) ≠ 2 := by
  refine ⟨?_, by norm_num [specRoundSat], by norm_num⟩
  norm_num [playFiltersAux, cTrunc]

/-- C3, amended: every output sample emitted by the playback loop equals
the crossfaded value `(1-r)*prevFrame[prevFramePos] + r*frame[framePos]`
converted to integer by truncation toward zero (C's default conversion) —
not rounded to nearest and not explicitly saturated; nevertheless, when
both frames' values lie in the 16-bit sample range every emitted sample
lies in `[-32768, 32767]`, because each blend is a convex combination (the
ratio-range guard makes `r ∈ [0,1]` on every emitting iteration), so no
wraparound occurs. -/
theorem c3_truncation_amended (speed stepSize inputPos : ℚ) (pp p : ℕ)
    (prevF curF : List ℚ) (fuel : ℕ) (st : PlayState)
    (hprev : ∀ x ∈ prevF, -32768 ≤ x ∧ x ≤ 32767)
    (hcur : ∀ x ∈ curF, -32768 ≤ x ∧ x ≤ 32767)
    (hsync : st.out = st.blends.map cTrunc)
    (hbnd : ∀ b ∈ st.blends, -32768 ≤ b ∧ b ≤ 32767) :
    (playFiltersAux speed stepSize inputPos pp p prevF curF fuel st).2.out =
      (playFiltersAux speed stepSize inputPos pp p prevF curF fuel st).2.blends.map cTrunc ∧
    ∀ o ∈ (playFiltersAux speed stepSize inputPos pp p prevF curF fuel st).2.out,
      -32768 ≤ o ∧ o ≤ 32767 := by
  obtain ⟨h1, h2⟩ := playFilters_blends_spec speed stepSize inputPos pp p prevF curF
    hprev hcur fuel st hsync hbnd
  refine ⟨h1, ?_⟩
  intro o ho
  rw [h1] at ho
  obtain ⟨b, hbm, rfl⟩ := List.mem_map.1 ho
  exact cTrunc_bounds (h2 b hbm).1 (h2 b hbm).2

/-- C3, witness: on a concrete run the emitted samples are exactly the
truncations of the recorded blended values. -/
theorem c3_truncation_witness :
    (playFiltersAux 1 1 0 1 1 [3 / 2] [0] 1 ⟨0, 0, 0, [], [], []⟩).2.out =
      (playFiltersAux 1 1 0 1 1 [3 / 2] [0] 1 ⟨0, 0, 0, [], [], []⟩).2.blends.map cTrunc :=
  (c3_truncation_amended 1 1 0 1 1 [3 / 2] [0] 1 ⟨0, 0, 0, [], [], []⟩
    (by norm_num) (by norm_num) (by simp) (by simp)).1

/-! ### Claim C1 -/

/-- C1, counterexample: an entry state with
`exactInputPos - inputPos = 2 ≥ 0` and `stepSize = 1`, `speed = 1 > 0`,
satisfies the claim's hypotheses, yet the very first crossfade ratio
computed is `2 ∉ [0,1]` — the do-while body runs once unconditionally, so
the entry state must also satisfy `exactInputPos - inputPos ≤ stepSize`
for the ratios to stay in range.  (The run does abort fatally, as the
claim's second half says.) -/
theorem c1_ratio_counterexample :
    (0 : ℚ) < 1 ∧ (0 : ℚ) ≤ 2 - 0 ∧
    (playFiltersAux 1 1 0 1 1 [0] [0] 3 ⟨2, 0, 0, [], [], []⟩).2.ratios = [2] ∧
    ¬((2 : ℚ) ≤ 1) ∧
    (playFiltersAux 1 1 0 1 1 [0] [0] 3 ⟨2, 0, 0, [], [], []⟩).1 = Outcome.ratioFail := by
  refine ⟨by norm_num, by norm_num, ?_, by norm_num, ?_⟩ <;> norm_num [playFiltersAux]

/-- C1, amended: given `speed > 0`, `stepSize > 0` and an entry state with
`0 ≤ exactInputPos - inputPos ≤ stepSize`, every crossfade ratio computed
while generating output samples lies in `[0,1]` and the ratio check never
fires; and, for any entry state whatsoever, if a ratio outside `[0,1]` is
ever computed the run aborts fatally through the ratio check (it is never
clamped). -/
theorem c1_ratio_amended :
    (∀ (speed stepSize inputPos : ℚ) (pp p : ℕ) (prevF curF : List ℚ)
      (fuel : ℕ) (st : PlayState), 0 < speed → 0 < stepSize →
      0 ≤ st.exact - inputPos → st.exact - inputPos ≤ stepSize → st.ratios = [] →
      (∀ x ∈ (playFiltersAux speed stepSize inputPos pp p prevF curF fuel st).2.ratios,
        0 ≤ x ∧ x ≤ 1) ∧
      (playFiltersAux speed stepSize inputPos pp p prevF curF fuel st).1 ≠
        Outcome.ratioFail) ∧
    (∀ (speed stepSize inputPos : ℚ) (pp p : ℕ) (prevF curF : List ℚ)
      (fuel : ℕ) (st : PlayState), st.ratios = [] →
      (∃ x ∈ (playFiltersAux speed stepSize inputPos pp p prevF curF fuel st).2.ratios,
        ¬(0 ≤ x ∧ x ≤ 1)) →
      (playFiltersAux speed stepSize inputPos pp p prevF curF fuel st).1 =
        Outcome.ratioFail) := by
  constructor
  · intro speed stepSize inputPos pp p prevF curF fuel st hsp hss h0 h1 hemp
    exact playFilters_ratios_in_range speed stepSize inputPos pp p prevF curF hsp hss
      fuel st h0 h1 (by rw [hemp]; intro x hx; exact absurd hx (List.not_mem_nil x))
  · intro speed stepSize inputPos pp p prevF curF fuel st hemp hex
    exact playFilters_abort_on_bad speed stepSize inputPos pp p prevF curF fuel st
      (by rw [hemp]; intro x hx; exact absurd hx (List.not_mem_nil x)) hex

/-- C1, witness: on a concrete in-range entry state the loop completes
without tripping the ratio check. -/
theorem c1_ratio_witness :
    (playFiltersAux 1 1 0 1 1 [0] [0] 3 ⟨0, 0, 0, [], [], []⟩).1 ≠ Outcome.ratioFail :=
  (c1_ratio_amended.1 1 1 0 1 1 [0] [0] 3 ⟨0, 0, 0, [], [], []⟩
    (by norm_num) (by norm_num) (by norm_num) (by norm_num) rfl).2

/-! ### Lemmas about one engine step and the driver loop -/

theorem findPitchPeriod_some_cond (s : ℤ → ℤ) (minP maxP pp : ℕ) (pv : Bool)
    (b : ℕ) (v : Bool) (h : findPitchPeriod s minP maxP pp pv = some (b, v)) :
    1 ≤ searchStart minP pp pv ∧ searchStart minP pp pv < searchStop maxP pp pv := by
  unfold findPitchPeriod at h
  by_cases hc : searchStart minP pp pv = 0 ∨ searchStop maxP pp pv ≤ searchStart minP pp pv
  · rw [if_pos hc] at h
    exact absurd h (by simp)
  · push_neg at hc
    omega

theorem findPitchPeriod_some_bounds (s : ℤ → ℤ) (minP maxP pp : ℕ) (pv : Bool)
    (b : ℕ) (v : Bool) (h : findPitchPeriod s minP maxP pp pv = some (b, v)) :
    minP ≤ b ∧ b ≤ maxP ∧ 1 ≤ b := by
  obtain ⟨h1, h2⟩ := findPitchPeriod_some_cond s minP maxP pp pv b v h
  obtain ⟨acc, heq, hinv⟩ := findPitchPeriod_spec s minP maxP pp pv h1 h2
  rw [heq] at h
  rw [Option.some.injEq, Prod.mk.injEq] at h
  obtain ⟨hb, _⟩ := h
  obtain ⟨_, _, hposf⟩ := hinv
  obtain ⟨hb1, hb2, _, _, _⟩ := hposf (by omega)
  subst hb
  have hstop := searchStop_le maxP pp pv
  have hstart := searchStart_ge minP pp pv
  omega

theorem step_ok_spec (speed : ℚ) (samples : ℤ → ℤ) (minP maxP : ℕ) (e : Engine)
    (hper : 1 ≤ e.period)
    (hok : (generateSamplesForOneStep speed samples minP maxP e).1 = Outcome.ok) :
    (generateSamplesForOneStep speed samples minP maxP e).2.inputPos =
      e.inputPos + e.period ∧
    minP ≤ (generateSamplesForOneStep speed samples minP maxP e).2.period ∧
    (generateSamplesForOneStep speed samples minP maxP e).2.period ≤ maxP ∧
    (0 ≤ e.exact - (e.inputPos : ℚ) ∧ e.exact - (e.inputPos : ℚ) ≤ (e.period : ℚ)) ∧
    (e.period : ℚ) ≤ (generateSamplesForOneStep speed samples minP maxP e).2.exact -
      (e.inputPos : ℚ) ∧
    (generateSamplesForOneStep speed samples minP maxP e).2.exact - (e.inputPos : ℚ) ≤
      (e.period : ℚ) + speed ∧
    (e.exact - (e.inputPos : ℚ) < (e.period : ℚ) →
      (generateSamplesForOneStep speed samples minP maxP e).2.exact - (e.inputPos : ℚ) <
        (e.period : ℚ) + speed) ∧
    e.out.length < (generateSamplesForOneStep speed samples minP maxP e).2.out.length ∧
    speed * (((generateSamplesForOneStep speed samples minP maxP e).2.out.length : ℚ) -
      (e.out.length : ℚ)) =
      (generateSamplesForOneStep speed samples minP maxP e).2.exact - e.exact := by
  have hss : (0 : ℚ) < (e.period : ℚ) := by exact_mod_cast hper
  unfold generateSamplesForOneStep at hok ⊢
  dsimp only at hok ⊢
  rcases hfind : findPitchPeriod
      (fun k => samples ((e.inputPos : ℤ) + (e.period : ℤ) + k))
      minP maxP e.period e.prevVoiced with _ | pv
  · simp only [hfind] at hok
    exact absurd hok (by simp)
  · obtain ⟨hbmin, hbmax, _⟩ := findPitchPeriod_some_bounds _ _ _ _ _ _ _ hfind
    simp only [hfind] at hok ⊢
    have H := playFilters_ok_spec speed (e.period : ℚ) (e.inputPos : ℚ) e.period pv.1
      e.filter (computeFilter
        (fun k => samples ((e.inputPos : ℤ) + (e.period : ℤ) + k)) pv.1 e.period
        e.filterPos).1 hss
      (playFuel speed (e.period : ℚ) (e.exact - (e.inputPos : ℚ)))
      ⟨e.exact, e.filterPos, (computeFilter
        (fun k => samples ((e.inputPos : ℤ) + (e.period : ℤ) + k)) pv.1 e.period
        e.filterPos).2, e.out, e.ratios, e.blends⟩ hok
    obtain ⟨⟨hd0, hd1⟩, hx1, hx2, hx3, hlen, hacc⟩ := H
    exact ⟨trivial, hbmin, hbmax, ⟨hd0, hd1⟩, hx1, hx2, hx3, hlen, hacc⟩

theorem step_no_fuelOut (speed : ℚ) (samples : ℤ → ℤ) (minP maxP : ℕ) (e : Engine)
    (hsp : 0 < speed) :
    (generateSamplesForOneStep speed samples minP maxP e).1 ≠ Outcome.fuelOut := by
  unfold generateSamplesForOneStep
  dsimp only
  rcases hfind : findPitchPeriod
      (fun k => samples ((e.inputPos : ℤ) + (e.period : ℤ) + k))
      minP maxP e.period e.prevVoiced with _ | pv
  · simp only [hfind]
    simp
  · simp only [hfind]
    exact playFuel_enough speed (e.period : ℚ) (e.inputPos : ℚ) e.period pv.1
      e.filter _ hsp _

/-! ### Claim C2 -/

/-- C2, counterexample: with `speed = 5 > 0` and the step size (the period
just finalised) equal to 1, a step that enters with
`exactInputPos - inputPos = 0` finishes with
`exactInputPos - inputPos = 4`, which is not `< stepSize = 1`: the
invariant `0 ≤ exactInputPos - inputPos < stepSize` fails at the end of
the step whenever `speed` exceeds the step size. -/
theorem c2_invariant_counterexample :
    (0 : ℚ) < 5 ∧
    (generateSamplesForOneStep 5 (fun _ => 0) 1 2 engineC2).1 = Outcome.ok ∧
    (generateSamplesForOneStep 5 (fun _ => 0) 1 2 engineC2).2.exact -
      ((generateSamplesForOneStep 5 (fun _ => 0) 1 2 engineC2).2.inputPos : ℚ) = 4 ∧
    ¬((4 : ℚ) < (engineC2.period : ℚ)) := by
  have hfind : findPitchPeriod (fun _ => (0 : ℤ)) 1 2 1 false = some (1, false) := by
    decide
  refine ⟨by norm_num, ?_, ?_, by norm_num [engineC2]⟩ <;>
    norm_num [generateSamplesForOneStep, engineC2, hfind, computeFilter, playFuel,
      playFiltersAux, cTrunc, List.range_succ]

/-- C2, amended: for every `speed` with `0 < speed ≤ stepSize` and an
entry state satisfying `0 ≤ exactInputPos - inputPos < stepSize`, a step
that completes normally restores `0 ≤ exactInputPos - inputPos < stepSize`
at its end (after `inputPos` is advanced by `stepSize`), where `stepSize`
is the step size used by that step; without `speed ≤ stepSize` only
`0 ≤ exactInputPos - inputPos < speed` holds, as the counterexample
shows. -/
theorem c2_invariant_amended (speed : ℚ) (samples : ℤ → ℤ) (minP maxP : ℕ)
    (e : Engine) (hsp : 0 < speed) (hper : 1 ≤ e.period)
    (hspeed : speed ≤ (e.period : ℚ))
    (hentry0 : 0 ≤ e.exact - (e.inputPos : ℚ))
    (hentry1 : e.exact - (e.inputPos : ℚ) < (e.period : ℚ))
    (hok : (generateSamplesForOneStep speed samples minP maxP e).1 = Outcome.ok) :
    0 ≤ (generateSamplesForOneStep speed samples minP maxP e).2.exact -
      ((generateSamplesForOneStep speed samples minP maxP e).2.inputPos : ℚ) ∧
    (generateSamplesForOneStep speed samples minP maxP e).2.exact -
      ((generateSamplesForOneStep speed samples minP maxP e).2.inputPos : ℚ) <
      (e.period : ℚ) := by
  obtain ⟨hip, _, _, _, hx1, hx2, hx3, _, _⟩ :=
    step_ok_spec speed samples minP maxP e hper hok
  have hcast : (((generateSamplesForOneStep speed samples minP maxP e).2.inputPos : ℕ) : ℚ) =
      (e.inputPos : ℚ) + (e.period : ℚ) := by
    rw [hip]
    push_cast
    ring
  have hstrict := hx3 hentry1
  constructor
  · rw [hcast]
    linarith
  · rw [hcast]
    linarith

/-- C2, witness: at `speed = 1` and step size 1 the invariant is restored
at the end of a concrete step. -/
theorem c2_invariant_witness :
    0 ≤ (generateSamplesForOneStep 1 (fun _ => 0) 1 2 engineC2).2.exact -
      ((generateSamplesForOneStep 1 (fun _ => 0) 1 2 engineC2).2.inputPos : ℚ) ∧
    (generateSamplesForOneStep 1 (fun _ => 0) 1 2 engineC2).2.exact -
      ((generateSamplesForOneStep 1 (fun _ => 0) 1 2 engineC2).2.inputPos : ℚ) <
      (engineC2.period : ℚ) := by
  refine c2_invariant_amended 1 (fun _ => 0) 1 2 engineC2 (by norm_num)
    (by norm_num [engineC2]) (by norm_num [engineC2]) (by norm_num [engineC2])
    (by norm_num [engineC2]) ?_
  have hfind : findPitchPeriod (fun _ => (0 : ℤ)) 1 2 1 false = some (1, false) := by
    decide
  norm_num [generateSamplesForOneStep, engineC2, hfind, computeFilter, playFuel,
    playFiltersAux, cTrunc, List.range_succ]

theorem playAllAux_ok_spec (speed : ℚ) (samples : ℤ → ℤ) (minP maxP inputLength : ℕ)
    (hsp : 0 < speed) (hminP : 1 ≤ minP) :
    ∀ (fuel : ℕ) (e : Engine), EngineBounds speed minP maxP e →
      (playAllAux speed samples minP maxP inputLength fuel e).1 = Outcome.ok →
      EngineBounds speed minP maxP
        (playAllAux speed samples minP maxP inputLength fuel e).2 ∧
      inputLength ≤ (playAllAux speed samples minP maxP inputLength fuel e).2.inputPos ∧
      (playAllAux speed samples minP maxP inputLength fuel e).2.inputPos ≤
        max e.inputPos (inputLength + maxP - 1) := by
  intro fuel
  induction fuel with
  | zero =>
    intro e hB hok
    rw [playAllAux] at hok ⊢
    by_cases hc : e.inputPos < inputLength
    · rw [if_pos hc] at hok
      exact absurd hok (by simp)
    · rw [if_neg hc] at hok ⊢
      dsimp only
      exact ⟨hB, by omega, le_max_left _ _⟩
  | succ n ih =>
    intro e hB hok
    rw [playAllAux] at hok ⊢
    by_cases hc : e.inputPos < inputLength
    · rw [if_pos hc] at hok ⊢
      rcases hstep : generateSamplesForOneStep speed samples minP maxP e with ⟨oc, e'⟩
      obtain ⟨hm1, hm2, hd0, hd1, hacc⟩ := hB
      have hper : 1 ≤ e.period := le_trans hminP hm1
      cases oc with
      | ok =>
        have hokstep : (generateSamplesForOneStep speed samples minP maxP e).1 =
            Outcome.ok := by rw [hstep]
        obtain ⟨hip, hpmin, hpmax, ⟨he0, he1⟩, hx1, hx2, hx3, hlen, haccs⟩ :=
          step_ok_spec speed samples minP maxP e hper hokstep
        rw [hstep] at hip hpmin hpmax hx1 hx2 hlen haccs
        dsimp only at hip hpmin hpmax hx1 hx2 hlen haccs
        simp only [hstep] at hok ⊢
        have hcast : ((e'.inputPos : ℕ) : ℚ) = (e.inputPos : ℚ) + (e.period : ℚ) := by
          rw [hip]
          push_cast
          ring
        have hB' : EngineBounds speed minP maxP e' := by
          refine ⟨hpmin, hpmax, ?_, ?_, ?_⟩
          · rw [hcast]
            linarith
          · rw [hcast]
            linarith
          · ring_nf at haccs hacc ⊢
            linarith
        obtain ⟨hBr, hger, hler⟩ := ih e' hB' hok
        refine ⟨hBr, hger, ?_⟩
        have hip' : e'.inputPos ≤ inputLength + maxP - 1 := by omega
        have hmax : max e'.inputPos (inputLength + maxP - 1) = inputLength + maxP - 1 :=
          max_eq_right hip'
        rw [hmax] at hler
        exact le_trans hler (le_max_right _ _)
      | ratioFail =>
        simp only [hstep] at hok
        simp at hok
      | divZero =>
        simp only [hstep] at hok
        simp at hok
      | fuelOut =>
        simp only [hstep] at hok
        simp at hok
    · rw [if_neg hc] at hok ⊢
      dsimp only
      exact ⟨⟨hB.1, hB.2.1, hB.2.2.1, hB.2.2.2.1, hB.2.2.2.2⟩, by omega, le_max_left _ _⟩

theorem playAllAux_no_fuelOut (speed : ℚ) (samples : ℤ → ℤ)
    (minP maxP inputLength : ℕ) (hsp : 0 < speed) (hminP : 1 ≤ minP) :
    ∀ (fuel : ℕ) (e : Engine), minP ≤ e.period → inputLength ≤ e.inputPos + fuel →
      (playAllAux speed samples minP maxP inputLength fuel e).1 ≠ Outcome.fuelOut := by
  intro fuel
  induction fuel with
  | zero =>
    intro e hper hfl
    rw [playAllAux]
    rw [if_neg (by omega)]
    simp
  | succ n ih =>
    intro e hper hfl
    rw [playAllAux]
    by_cases hc : e.inputPos < inputLength
    · rw [if_pos hc]
      rcases hstep : generateSamplesForOneStep speed samples minP maxP e with ⟨oc, e'⟩
      have hnofo : oc ≠ Outcome.fuelOut := by
        have h := step_no_fuelOut speed samples minP maxP e hsp
        rw [hstep] at h
        exact h
      cases oc with
      | ok =>
        have hokstep : (generateSamplesForOneStep speed samples minP maxP e).1 =
            Outcome.ok := by rw [hstep]
        obtain ⟨hip, hpmin, _⟩ :=
          step_ok_spec speed samples minP maxP e (le_trans hminP hper) hokstep
        rw [hstep] at hip hpmin
        dsimp only at hip hpmin
        simp only [hstep]
        exact ih e' hpmin (by omega)
      | ratioFail =>
        simp only [hstep]
        simp
      | divZero =>
        simp only [hstep]
        simp
      | fuelOut =>
        exact absurd rfl hnofo
    · rw [if_neg hc]
      simp

/-! ### Claim C8 -/

/-- C8: for every `speed > 0`, if a complete run of the driver loop
finishes normally then the total output sample count satisfies
`|speed * outputCount - inputLength| ≤ maxPeriod + speed`: the output
length is `inputLength / speed` up to a tolerance of at most one step
(bounded by `maxPeriod` input samples) plus one output sample's worth of
input; in particular `speed = 2` on `N` samples yields about `N/2` output
samples and `speed = 1/2` about `2N`. -/
theorem c8_output_count (speed : ℚ) (samples : ℤ → ℤ)
    (minP maxP inputLength fuel : ℕ) (hsp : 0 < speed) (hminP : 1 ≤ minP)
    (hmm : minP ≤ maxP)
    (hok : (playAll speed samples minP maxP inputLength fuel).1 = Outcome.ok) :
    |speed * ((playAll speed samples minP maxP inputLength fuel).2.out.length : ℚ) -
      (inputLength : ℚ)| ≤ (maxP : ℚ) + speed := by
  have hinit : EngineBounds speed minP maxP (initEngine minP maxP) := by
    refine ⟨le_refl _, hmm, ?_, ?_, ?_⟩
    · simp [initEngine]
    · simp only [initEngine, sub_self]
      exact hsp.le
    · simp [initEngine]
  unfold playAll at hok ⊢
  obtain ⟨hBr, hger, hler⟩ := playAllAux_ok_spec speed samples minP maxP inputLength
    hsp hminP fuel (initEngine minP maxP) hinit hok
  obtain ⟨hm1, hm2, hd0, hd1, hacc⟩ := hBr
  have hinitip : (initEngine minP maxP).inputPos = maxP := rfl
  rw [hinitip] at hler
  have hub : (playAllAux speed samples minP maxP inputLength fuel
      (initEngine minP maxP)).2.inputPos ≤ inputLength + maxP := by
    have h1 : max maxP (inputLength + maxP - 1) ≤ inputLength + maxP :=
      max_le (by omega) (by omega)
    omega
  have hgerQ : (inputLength : ℚ) ≤ ((playAllAux speed samples minP maxP inputLength fuel
      (initEngine minP maxP)).2.inputPos : ℚ) := by exact_mod_cast hger
  have hubQ : ((playAllAux speed samples minP maxP inputLength fuel
      (initEngine minP maxP)).2.inputPos : ℚ) ≤ (inputLength : ℚ) + (maxP : ℚ) := by
    exact_mod_cast hub
  have hmnn : (0 : ℚ) ≤ (maxP : ℚ) := Nat.cast_nonneg _
  rw [abs_le, hacc]
  constructor
  · linarith
  · linarith

/-- C8, witness: a complete concrete run (all-zero input, `minPeriod = 1`,
`maxPeriod = 2`, `inputLength = 4`, `speed = 1`) satisfies the output
count bound. -/
theorem c8_output_count_witness :
    |1 * ((playAll 1 (fun _ => 0) 1 2 4 3).2.out.length : ℚ) - ((4 : ℕ) : ℚ)| ≤
      ((2 : ℕ) : ℚ) + 1 := by
  refine c8_output_count 1 (fun _ => 0) 1 2 4 3 (by norm_num) (by norm_num)
    (by norm_num) ?_
  have hfind : findPitchPeriod (fun _ => (0 : ℤ)) 1 2 1 false = some (1, false) := by
    decide
  norm_num [playAll, playAllAux, initEngine, generateSamplesForOneStep, hfind,
    computeFilter, playFuel, playFiltersAux, cTrunc, List.range_succ]

/-! ### Claim C9 -/

/-- C9: across the whole run, every normally-completed engine step
advances `inputPos` by exactly the step size `period > 0`, never decreases
`exactInputPos` or the output count (indeed `exactInputPos` advances by
exactly `speed` per emitted output sample); and with `speed > 0` and
`minPeriod ≥ 1` the driver loop terminates on every finite input: fuel
`inputLength - inputPos` steps is always enough, so the loop never runs
out of fuel (a fatal abort also ends the run). -/
theorem c9_monotone_termination :
    (∀ (speed : ℚ) (samples : ℤ → ℤ) (minP maxP : ℕ) (e : Engine), 0 < speed →
      1 ≤ e.period →
      (generateSamplesForOneStep speed samples minP maxP e).1 = Outcome.ok →
      (generateSamplesForOneStep speed samples minP maxP e).2.inputPos =
        e.inputPos + e.period ∧ 0 < e.period ∧
      e.exact ≤ (generateSamplesForOneStep speed samples minP maxP e).2.exact ∧
      e.out.length < (generateSamplesForOneStep speed samples minP maxP e).2.out.length ∧
      speed * (((generateSamplesForOneStep speed samples minP maxP e).2.out.length : ℚ) -
        (e.out.length : ℚ)) =
        (generateSamplesForOneStep speed samples minP maxP e).2.exact - e.exact) ∧
    (∀ (speed : ℚ) (samples : ℤ → ℤ) (minP maxP inputLength fuel : ℕ) (e : Engine),
      0 < speed → 1 ≤ minP → minP ≤ e.period → inputLength ≤ e.inputPos + fuel →
      (playAllAux speed samples minP maxP inputLength fuel e).1 ≠ Outcome.fuelOut) := by
  constructor
  · intro speed samples minP maxP e hsp hper hok
    obtain ⟨hip, _, _, _, _, _, _, hlen, haccs⟩ :=
      step_ok_spec speed samples minP maxP e hper hok
    refine ⟨hip, by omega, ?_, hlen, haccs⟩
    have hnn : (0 : ℚ) ≤
        ((generateSamplesForOneStep speed samples minP maxP e).2.out.length : ℚ) -
        (e.out.length : ℚ) := by
      have : (e.out.length : ℚ) ≤
          ((generateSamplesForOneStep speed samples minP maxP e).2.out.length : ℚ) := by
        exact_mod_cast hlen.le
      linarith
    nlinarith [haccs, mul_nonneg hsp.le hnn]
  · intro speed samples minP maxP inputLength fuel e hsp hminP hper hfl
    exact playAllAux_no_fuelOut speed samples minP maxP inputLength hsp hminP fuel e
      hper hfl

/-- C9, witness: the termination half applied to a concrete run — with
fuel 4 on a length-4 input starting at position 2, the driver never runs
out of fuel. -/
theorem c9_monotone_termination_witness :
    (playAllAux 1 (fun _ => 0) 1 2 4 4 (initEngine 1 2)).1 ≠ Outcome.fuelOut := by
  refine c9_monotone_termination.2 1 (fun _ => 0) 1 2 4 4 (initEngine 1 2)
    (by norm_num) (by norm_num) ?_ ?_
  · norm_num [initEngine]
  · norm_num [initEngine]

/-! ### Claim C10 -/

/-- C10: the program does not validate `speed ≤ 0`.  With well-formed
arguments and `speed = 0` the engine reaches `playFilters`, where
`exactInputPos` never advances, the crossfade ratio is a harmless 0 on
every iteration, and the do-while loop never exits: the modelled loop
returns fuel-exhaustion for every fuel bound — the process hangs forever
instead of reporting a configuration error and exiting non-zero as the
claim requires.  (Step sizes are positive in any run, modelled here as
`k + 1`; the entry state has `exactInputPos = inputPos` as at the start of
a run.) -/
theorem c10_speed_zero_diverges :
    ∀ (n k pfp fp : ℕ) (inputPos : ℚ) (pp p : ℕ) (prevF curF : List ℚ)
      (out : List ℤ) (rts blds : List ℚ),
      (playFiltersAux 0 ((k : ℚ) + 1) inputPos pp p prevF curF n
        ⟨inputPos, pfp, fp, out, rts, blds⟩).1 = Outcome.fuelOut := by
  intro n
  induction n with
  | zero =>
    intros
    rw [playFiltersAux]
  | succ m ih =>
    intro k pfp fp inputPos pp p prevF curF out rts blds
    rw [playFiltersAux]
    dsimp only
    have hss : (0 : ℚ) < (k : ℚ) + 1 := by positivity
    have hr : ¬((inputPos - inputPos) / ((k : ℚ) + 1) < 0 ∨
        1 < (inputPos - inputPos) / ((k : ℚ) + 1)) := by
      push_neg
      rw [sub_self, zero_div]
      norm_num
    rw [if_neg hr]
    have hb : inputPos + 0 - inputPos < (k : ℚ) + 1 := by
      rw [add_zero, sub_self]
      exact hss
    rw [if_pos hb]
    simp only [add_zero]
    exact ih k _ _ inputPos pp p prevF curF _ _ _
